import Mathlib

/-
  Verification of the m3u-to-m3u8 playlist conversion tool.

  Strings are modelled as `List Char`. Pure functions of the source
  (`findLargestCommonPrefix`, the regex scan of `getFirstEntry`, the per-line
  rewrite step of `transformFilesUsingConfiguration`, `determineExcludedFiles`,
  and the output-name collision handling) are translated into executable Lean
  definitions; file streams are modelled by the file's character content, and
  the readline interface by an explicit line splitter.
-/

namespace M3u8Tweaks

/--
The character-scanning loop of `findLargestCommonPrefix` (src/src/main.ts,
lines 392-394): `while (words[0][i] && words.every((w) => w[i] === words[0][i])) i++`.
The first argument is the remaining suffix of `words[0]`; the second argument
is the list of all words with the first `i` characters dropped.  JS `w[i]` on a
too-short word is `undefined`, which compares unequal to any character; this is
`w.head? == some c` on the dropped suffixes.
-/
def matchLen : List Char → List (List Char) → Nat
  | [], _ => 0
  | c :: cs, ws =>
    if ws.all (fun w => w.head? == some c) then matchLen cs (ws.map List.tail) + 1 else 0

/-- If some element of a list fails the predicate, filtering strictly shrinks it. -/
theorem length_filter_lt_of_mem {α : Type} (p : α → Bool) (l : List α) (x : α)
    (hx : x ∈ l) (hpx : p x = false) : (l.filter p).length < l.length := by
  induction l with
  | nil => cases hx
  | cons a l ih =>
    rcases List.mem_cons.mp hx with rfl | hxl
    · rw [List.filter_cons, if_neg (by simp [hpx])]
      have := List.length_filter_le p l
      simp only [List.length_cons]
      omega
    · rw [List.filter_cons]
      by_cases hpa : p a = true
      · rw [if_pos (by simp [hpa])]
        simpa using ih hxl
      · rw [if_neg (by simpa using hpa)]
        have := ih hxl
        simp only [List.length_cons]
        omega

/--
Function `findLargestCommonPrefix` from src/src/main.ts lines 385-413 (identical copies
at lines 467-495 and in src/src/index.ts lines 269-301).  The first base case
`!words[0] || words.length == 1` returns `words[0] || ""`; when `i == 0` the
words whose first character differs from the first word's first character have
their (current) indices pushed onto the accumulator `excludeIndices`, and the
function recurses on the retained words.
-/
def findLargestCommonPrefix (words : List (List Char)) (excludeIndices : List Nat) :
    List Char × List Nat :=
  match words with
  | [] => ([], excludeIndices)
  | w0 :: rest =>
    if _h0 : w0 = [] then ([], excludeIndices)
    else if _hr : rest = [] then (w0, excludeIndices)
    else if hi : matchLen w0 (w0 :: rest) = 0 then
      findLargestCommonPrefix
        ((w0 :: rest).filter (fun w => w.head? == w0.head?))
        (excludeIndices ++
          (((w0 :: rest).enum).filter (fun q => !(q.2.head? == w0.head?))).map Prod.fst)
    else (w0.take (matchLen w0 (w0 :: rest)), excludeIndices)
termination_by words.length
decreasing_by
  obtain ⟨c, cs, rfl⟩ : ∃ c cs, w0 = c :: cs := by
    cases w0 with
    | nil => exact absurd rfl _h0
    | cons c cs => exact ⟨c, cs, rfl⟩
  rw [matchLen] at hi
  by_cases hall : ((c :: cs) :: rest).all (fun w => w.head? == some c) = true
  · rw [if_pos hall] at hi
    exact absurd hi (Nat.succ_ne_zero _)
  · obtain ⟨w, hw, hpw⟩ : ∃ w ∈ (c :: cs) :: rest, (w.head? == some c) = false := by
      by_contra hcon
      push_neg at hcon
      refine hall (List.all_eq_true.mpr fun w hw => ?_)
      by_contra hne
      simp only [Bool.not_eq_true] at hne
      exact hcon w hw hne
    have hlt := length_filter_lt_of_mem
      (fun w => w.head? == (c :: cs : List Char).head?) ((c :: cs) :: rest) w hw
      (by simpa using hpw)
    simpa using hlt

/-- The scan length never exceeds the length of the first word. -/
theorem matchLen_le_length (w0 : List Char) : ∀ ws : List (List Char), matchLen w0 ws ≤ w0.length := by
  induction w0 with
  | nil => intro ws; simp [matchLen]
  | cons c cs ih =>
    intro ws
    rw [matchLen]
    by_cases hall : ws.all (fun w => w.head? == some c) = true
    · rw [if_pos hall]
      simpa using Nat.succ_le_succ (ih (ws.map List.tail))
    · rw [if_neg hall]
      simp

/-- If every word of `ws` begins with `c`, the scan advances at least one position. -/
theorem matchLen_ne_zero (c : Char) (cs : List Char) (ws : List (List Char))
    (h : ∀ w ∈ ws, w.head? = some c) : matchLen (c :: cs) ws ≠ 0 := by
  rw [matchLen, if_pos]
  · exact Nat.succ_ne_zero _
  · rw [List.all_eq_true]
    intro w hw
    simp [h w hw]

/-- The first `matchLen` characters of `w0` are a prefix of every word of `ws`. -/
theorem take_matchLen_pre (w0 : List Char) (ws : List (List Char)) :
    ∀ w ∈ ws, w0.take (matchLen w0 ws) <+: w := by
  induction w0 generalizing ws with
  | nil => intro w _; simp [matchLen]
  | cons c cs ih =>
    intro w hw
    rw [matchLen]
    by_cases hall : ws.all (fun w => w.head? == some c) = true
    · rw [if_pos hall]
      have hhead : w.head? = some c := by
        have := List.all_eq_true.mp hall w hw
        simpa using this
      obtain ⟨w', rfl⟩ : ∃ w', w = c :: w' := by
        cases w with
        | nil => simp at hhead
        | cons a w' =>
          simp only [List.head?_cons, Option.some.injEq] at hhead
          exact ⟨w', by rw [hhead]⟩
      rw [List.take_succ_cons]
      exact (List.cons_prefix_cons).mpr
        ⟨rfl, ih (ws.map List.tail) w' (List.mem_map.mpr ⟨c :: w', hw, rfl⟩)⟩
    · rw [if_neg hall]
      simp

/-- Any common prefix of `ws` is at most `matchLen` characters long. -/
theorem length_le_matchLen (q : List Char) : ∀ (w0 : List Char) (ws : List (List Char)),
    w0 ∈ ws → (∀ w ∈ ws, q <+: w) → q.length ≤ matchLen w0 ws := by
  induction q with
  | nil => intro w0 ws _ _; simp
  | cons a q' ih =>
    intro w0 ws hw0 hq
    have h0 := hq w0 hw0
    obtain ⟨t, rfl⟩ : ∃ t, w0 = a :: t := by
      cases w0 with
      | nil =>
        have := List.prefix_nil.mp h0
        simp at this
      | cons b t =>
        obtain ⟨hab, -⟩ := List.cons_prefix_cons.mp h0
        exact ⟨t, by rw [hab]⟩
    rw [matchLen, if_pos]
    · have h1 : q'.length ≤ matchLen t (ws.map List.tail) := by
        apply ih t (ws.map List.tail) (List.mem_map.mpr ⟨a :: t, hw0, rfl⟩)
        intro w' hw'
        obtain ⟨w, hw, rfl⟩ := List.mem_map.mp hw'
        have hpw := hq w hw
        cases w with
        | nil =>
          have := List.prefix_nil.mp hpw
          simp at this
        | cons b u =>
          obtain ⟨-, hq'⟩ := List.cons_prefix_cons.mp hpw
          simpa using hq'
      simpa using Nat.succ_le_succ h1
    · rw [List.all_eq_true]
      intro w hw
      have hpw := hq w hw
      cases w with
      | nil =>
        have := List.prefix_nil.mp hpw
        simp at this
      | cons b u =>
        obtain ⟨hab, -⟩ := List.cons_prefix_cons.mp hpw
        simp [hab]

/-- Unfolding: the empty candidate list. -/
theorem flcp_nil (acc : List Nat) : findLargestCommonPrefix [] acc = ([], acc) := by
  rw [findLargestCommonPrefix]

/-- Unfolding: an empty first word short-circuits to the empty result. -/
theorem flcp_empty_head (rest : List (List Char)) (acc : List Nat) :
    findLargestCommonPrefix ([] :: rest) acc = ([], acc) := by
  rw [findLargestCommonPrefix]
  simp

/-- Unfolding: a one-element candidate list returns its element. -/
theorem flcp_single (w0 : List Char) (acc : List Nat) (h : w0 ≠ []) :
    findLargestCommonPrefix [w0] acc = (w0, acc) := by
  rw [findLargestCommonPrefix]
  simp [h]

/-- Unfolding: a positive scan length returns the scanned characters. -/
theorem flcp_pos_case (w0 : List Char) (rest : List (List Char)) (acc : List Nat)
    (hr : rest ≠ []) (hi : matchLen w0 (w0 :: rest) ≠ 0) :
    findLargestCommonPrefix (w0 :: rest) acc = (w0.take (matchLen w0 (w0 :: rest)), acc) := by
  have h0 : w0 ≠ [] := by
    rintro rfl
    exact hi (by rw [matchLen])
  rw [findLargestCommonPrefix]
  simp [h0, hr, hi]

/-- Unfolding: immediate divergence partitions the words and recurses. -/
theorem flcp_zero_case (w0 : List Char) (rest : List (List Char)) (acc : List Nat)
    (h0 : w0 ≠ []) (hr : rest ≠ []) (hi : matchLen w0 (w0 :: rest) = 0) :
    findLargestCommonPrefix (w0 :: rest) acc =
      findLargestCommonPrefix ((w0 :: rest).filter (fun w => w.head? == w0.head?))
        (acc ++
          (((w0 :: rest).enum).filter (fun q => !(q.2.head? == w0.head?))).map Prod.fst) := by
  rw [findLargestCommonPrefix]
  simp [h0, hr, hi]

/-- The first word always survives its own filtering step. -/
theorem filter_head_cons (w0 : List Char) (rest : List (List Char)) :
    (w0 :: rest).filter (fun w => w.head? == w0.head?) =
      w0 :: rest.filter (fun w => w.head? == w0.head?) := by
  rw [List.filter_cons, if_pos (by simp)]

/--
C6: for every non-empty list of candidate strings that all share a non-empty
common prefix (witnessed by a shared first character `c` and continuation `p`),
`findLargestCommonPrefix` returns exactly their longest common prefix (it is a
common prefix, and every common prefix is a prefix of it) together with an
empty exclusion set.
-/
theorem findLargestCommonPrefix_of_shared (w0 : List Char) (rest : List (List Char))
    (c : Char) (p : List Char) (hshare : ∀ w ∈ w0 :: rest, (c :: p) <+: w) :
    (findLargestCommonPrefix (w0 :: rest) []).2 = [] ∧
    (∀ w ∈ w0 :: rest, (findLargestCommonPrefix (w0 :: rest) []).1 <+: w) ∧
    (∀ q : List Char, (∀ w ∈ w0 :: rest, q <+: w) →
      q <+: (findLargestCommonPrefix (w0 :: rest) []).1) := by
  have h0 : w0 ≠ [] := by
    rintro rfl
    have := List.prefix_nil.mp (hshare [] (List.mem_cons_self _ _))
    simp at this
  by_cases hr : rest = []
  · subst hr
    rw [flcp_single w0 [] h0]
    refine ⟨rfl, ?_, ?_⟩
    · intro w hw
      rw [List.mem_singleton] at hw
      subst hw
      exact List.prefix_refl w
    · intro q hq
      exact hq w0 (List.mem_singleton.mpr rfl)
  · have hheads : ∀ w ∈ w0 :: rest, w.head? = some c := by
      intro w hw
      have hpw := hshare w hw
      cases w with
      | nil =>
        have := List.prefix_nil.mp hpw
        simp at this
      | cons b u =>
        obtain ⟨hcb, -⟩ := List.cons_prefix_cons.mp hpw
        rw [List.head?_cons, hcb]
    have hi : matchLen w0 (w0 :: rest) ≠ 0 := by
      obtain ⟨t, rfl⟩ : ∃ t, w0 = c :: t := by
        have hh := hheads w0 (List.mem_cons_self _ _)
        cases w0 with
        | nil => exact absurd rfl h0
        | cons b t =>
          simp only [List.head?_cons, Option.some.injEq] at hh
          exact ⟨t, by rw [hh]⟩
      exact matchLen_ne_zero c t _ hheads
    rw [flcp_pos_case w0 rest [] hr hi]
    refine ⟨rfl, take_matchLen_pre w0 (w0 :: rest), ?_⟩
    intro q hq
    exact List.prefix_take_iff.mpr
      ⟨hq w0 (List.mem_cons_self _ _),
       length_le_matchLen q w0 (w0 :: rest) (List.mem_cons_self _ _) hq⟩

/-- Concrete instance of C6 at the candidate list `["ab", "ac"]`. -/
theorem findLargestCommonPrefix_of_shared_witness :
    (findLargestCommonPrefix [['a', 'b'], ['a', 'c']] []).2 = [] ∧
    (∀ w ∈ [['a', 'b'], ['a', 'c']],
      (findLargestCommonPrefix [['a', 'b'], ['a', 'c']] []).1 <+: w) ∧
    (∀ q : List Char, (∀ w ∈ [['a', 'b'], ['a', 'c']], q <+: w) →
      q <+: (findLargestCommonPrefix [['a', 'b'], ['a', 'c']] []).1) :=
  findLargestCommonPrefix_of_shared ['a', 'b'] [['a', 'c']] 'a' [] (by decide)

/--
C2: when the first word is non-empty and some candidate diverges from it at
character position 0, the exclusion set returned by `findLargestCommonPrefix`
(started with an empty accumulator) lists exactly the indices, in the original
input list, of the candidates whose first character differs from the
baseline's; the returned prefix is the longest common prefix of the retained
candidates.  In particular, when exactly one element diverges the exclusion set
is exactly that element's original index and the prefix is the one shared by
the remaining elements.
-/
theorem findLargestCommonPrefix_diverging (w0 : List Char) (rest : List (List Char))
    (h0 : w0 ≠ []) (hdiv : ∃ w ∈ w0 :: rest, w.head? ≠ w0.head?) :
    (findLargestCommonPrefix (w0 :: rest) []).2 =
      (((w0 :: rest).enum).filter (fun q => !(q.2.head? == w0.head?))).map Prod.fst ∧
    (∀ w ∈ (w0 :: rest).filter (fun w => w.head? == w0.head?),
      (findLargestCommonPrefix (w0 :: rest) []).1 <+: w) ∧
    (∀ q : List Char, (∀ w ∈ (w0 :: rest).filter (fun w => w.head? == w0.head?), q <+: w) →
      q <+: (findLargestCommonPrefix (w0 :: rest) []).1) := by
  obtain ⟨c, cs, rfl⟩ : ∃ c cs, w0 = c :: cs := by
    cases w0 with
    | nil => exact absurd rfl h0
    | cons c cs => exact ⟨c, cs, rfl⟩
  have hr : rest ≠ [] := by
    rintro rfl
    obtain ⟨w, hw, hne⟩ := hdiv
    rw [List.mem_singleton] at hw
    subst hw
    exact hne rfl
  have hi : matchLen (c :: cs) ((c :: cs) :: rest) = 0 := by
    rw [matchLen, if_neg]
    intro hall
    obtain ⟨w, hw, hne⟩ := hdiv
    have := List.all_eq_true.mp hall w hw
    rw [List.head?_cons] at hne
    exact hne (by simpa using this)
  rw [flcp_zero_case (c :: cs) rest [] h0 hr hi, filter_head_cons]
  by_cases hr' : rest.filter (fun w => w.head? == (c :: cs : List Char).head?) = []
  · rw [hr', flcp_single (c :: cs) _ h0]
    refine ⟨by simp, ?_, ?_⟩
    · intro w hw
      rw [List.mem_singleton] at hw
      subst hw
      exact List.prefix_refl _
    · intro q hq
      exact hq (c :: cs) (List.mem_cons_self _ _)
  · have hheads' : ∀ w ∈ (c :: cs) :: rest.filter (fun w => w.head? == (c :: cs : List Char).head?),
        w.head? = some c := by
      intro w hw
      rcases List.mem_cons.mp hw with rfl | hw'
      · rfl
      · have := List.of_mem_filter hw'
        simpa using this
    have hi' : matchLen (c :: cs)
        ((c :: cs) :: rest.filter (fun w => w.head? == (c :: cs : List Char).head?)) ≠ 0 :=
      matchLen_ne_zero c cs _ hheads'
    rw [flcp_pos_case (c :: cs) _ _ hr' hi']
    refine ⟨by simp, take_matchLen_pre _ _, ?_⟩
    intro q hq
    exact List.prefix_take_iff.mpr
      ⟨hq (c :: cs) (List.mem_cons_self _ _),
       length_le_matchLen q (c :: cs) _ (List.mem_cons_self _ _) hq⟩

/-- Concrete instance of C2 at `["ab", "x", "ac"]`: element 1 diverges at position 0. -/
theorem findLargestCommonPrefix_diverging_witness :
    (findLargestCommonPrefix [['a', 'b'], ['x'], ['a', 'c']] []).2 =
      ((([['a', 'b'], ['x'], ['a', 'c']] :
          List (List Char)).enum).filter
        (fun q => !(q.2.head? == (['a', 'b'] : List Char).head?))).map Prod.fst ∧
    (∀ w ∈ ([['a', 'b'], ['x'], ['a', 'c']] :
        List (List Char)).filter (fun w => w.head? == (['a', 'b'] : List Char).head?),
      (findLargestCommonPrefix [['a', 'b'], ['x'], ['a', 'c']] []).1 <+: w) ∧
    (∀ q : List Char, (∀ w ∈ ([['a', 'b'], ['x'], ['a', 'c']] :
        List (List Char)).filter (fun w => w.head? == (['a', 'b'] : List Char).head?), q <+: w) →
      q <+: (findLargestCommonPrefix [['a', 'b'], ['x'], ['a', 'c']] []).1) :=
  findLargestCommonPrefix_diverging ['a', 'b'] [['x'], ['a', 'c']] (by decide)
    ⟨['x'], by decide, by decide⟩

/--
C10: when the first candidate is the empty string, `findLargestCommonPrefix`
returns the empty prefix and an empty exclusion set, no matter what candidates
follow (even if the remaining candidates share a non-empty common prefix).
-/
theorem findLargestCommonPrefix_empty_baseline (rest : List (List Char)) :
    findLargestCommonPrefix ([] :: rest) [] = ([], []) :=
  flcp_empty_head rest []

/-- The playlist format header marker checked by the rewrite loop. -/
def extm3uMarker : List Char := "#EXTM3U".toList

/--
JS `String.prototype.includes` on character lists: `hasSubstr pat s` holds iff
`pat` occurs contiguously inside `s` (the empty pattern occurs in every
string).
-/
def hasSubstr (pat : List Char) : List Char → Bool
  | [] => pat.isEmpty
  | c :: s => pat.isPrefixOf (c :: s) || hasSubstr pat s

/--
JS `String.prototype.indexOf` on character lists: the position of the first
occurrence of `pat` (the empty pattern occurs at position 0), or `none`.
-/
def matchPos (pat : List Char) : List Char → Option Nat
  | [] => if pat.isEmpty then some 0 else none
  | c :: s => if pat.isPrefixOf (c :: s) then some 0 else (matchPos pat s).map (· + 1)

/--
ECMA-262 GetSubstitution for a string search value, as applied by
`String.prototype.replace` to the replacement template: a dollar sign followed
by another dollar sign yields one dollar sign; followed by an ampersand it
yields the matched text; followed by a backquote (code 96) the text before the
match; followed by a straight quote (code 39) the text after the match.  Any
other dollar sign (including digit and angle-bracket forms: a string pattern
has no capture groups and no named captures) is copied literally, and scanning
resumes at the following character.
-/
def getSubstitution (matched before after : List Char) : List Char → List Char
  | [] => []
  | ['$'] => ['$']
  | '$' :: d :: r =>
    if d = '$' then '$' :: getSubstitution matched before after r
    else if d = '&' then matched ++ getSubstitution matched before after r
    else if d = Char.ofNat 96 then before ++ getSubstitution matched before after r
    else if d = Char.ofNat 39 then after ++ getSubstitution matched before after r
    else '$' :: getSubstitution matched before after (d :: r)
  | c :: r => c :: getSubstitution matched before after r

/--
JS `String.prototype.replace` with a string pattern: the first occurrence of
`pat` (if any) is replaced by `rep` expanded through GetSubstitution (with the
text before and after the match, and the matched text itself, available to the
dollar sequences).
-/
def jsReplace (pat rep s : List Char) : List Char :=
  match matchPos pat s with
  | none => s
  | some p =>
    s.take p ++ getSubstitution pat (s.take p) (s.drop (p + pat.length)) rep ++
      s.drop (p + pat.length)

/-- The `replaceAll` backslash-to-forward-slash normalization, per character. -/
def slashify (c : Char) : Char := if c = '\\' then '/' else c

/--
The per-line body of the rewrite loop in `transformFilesUsingConfiguration`
(src/src/main.ts lines 931-945): a line containing `#EXTM3U` is dropped
(`none`); a line not starting with `oldRoot` is written unchanged plus a
newline; otherwise the first occurrence of `oldRoot` is replaced by `newRoot`,
every backslash becomes a forward slash, and a newline is appended.
-/
def transformLine (oldRoot newRoot line : List Char) : Option (List Char) :=
  if hasSubstr extm3uMarker line then none
  else if !(oldRoot.isPrefixOf line) then some (line ++ ['\n'])
  else some ((jsReplace oldRoot newRoot line).map slashify ++ ['\n'])

/-- The whole per-file rewrite: the concatenation of all written chunks. -/
def transformLines (oldRoot newRoot : List Char) (lines : List (List Char)) : List Char :=
  (lines.filterMap (transformLine oldRoot newRoot)).flatten

/--
The `node:readline` line splitter feeding the rewrite loop (with
`crlfDelay: Infinity`): lines are broken at LF or CRLF (a lone CR is also
treated as a break), line terminators are not part of the yielded lines, and a
final line is yielded only when non-empty.  `cur` is the reversed accumulator
of the current line.
-/
def splitAux (cur : List Char) : List Char → List (List Char)
  | [] => if cur.isEmpty then [] else [cur.reverse]
  | '\r' :: '\n' :: rest => cur.reverse :: splitAux [] rest
  | '\n' :: rest => cur.reverse :: splitAux [] rest
  | '\r' :: rest => cur.reverse :: splitAux [] rest
  | c :: rest => splitAux (c :: cur) rest

/-- The lines of a file's character content, as the rewrite loop receives them. -/
def jsSplitLines (content : List Char) : List (List Char) := splitAux [] content

/-- The full rewrite of one playlist file's content. -/
def transformContent (oldRoot newRoot content : List Char) : List Char :=
  transformLines oldRoot newRoot (jsSplitLines content)

/-- A list of lines serialized with LF line endings and a trailing newline. -/
def joinLines (ls : List (List Char)) : List Char :=
  (ls.map (fun l => l ++ ['\n'])).flatten

/--
The scan of the regex in `getFirstEntry` (src/src/main.ts lines 360-383):
the first match of the JS regex `\n([^#].*)$` (multiline) in the file content.
The match requires a newline, then one character that is not `#` (a newline
qualifies, since a negated character class matches it), then the rest of that
line.  The streamed file is modelled by its full content (one chunk).
-/
def firstEntryAux : List Char → Option (List Char)
  | '\n' :: c :: rest =>
    if c = '#' then firstEntryAux (c :: rest)
    else some (c :: rest.takeWhile (fun x => x != '\n'))
  | _ :: rest => firstEntryAux rest
  | [] => none

/-- Function `getFirstEntry`: the regex capture, or the initial empty string if no match. -/
def getFirstEntry (content : List Char) : List Char := (firstEntryAux content).getD []

/--
The candidate path the spec describes for `getFirstEntry`: the content of the
first line of the file that does not start with `#`, and the empty string when
no such line exists (stated in the spec's words, for comparison with the
code's behaviour).
-/
def specFirstEntry (content : List Char) : List Char :=
  ((jsSplitLines content).find? (fun l => !(l.head? == some '#'))).getD []

/-- Whether a candidate path is an HTTP(S) stream entry. -/
def isHttpStream (p : List Char) : Bool :=
  ("http://".toList).isPrefixOf p || ("https://".toList).isPrefixOf p

/--
The stream detection of `getFirstTrackFilePaths` (src/src/main.ts lines 717-725):
the indices of the candidate paths that start with `http://` or `https://`.
-/
def httpStreamPathIndices (resolvedPaths : List (List Char)) : List Nat :=
  ((resolvedPaths.enum).filter (fun q => isHttpStream q.2)).map Prod.fst

/--
Function `determineExcludedFiles` (src/src/main.ts lines 741-767), used when the
operator supplies `--oldRoot`: the loop pushes index `i` when
`resolvedPaths[i].startsWith(oldRoot)` holds and `i` is not a stream index;
then the run aborts (`none`, modelling `utils.throw`) when the pushed indices
plus the stream indices cover every candidate.
-/
def determineExcludedFiles (oldRoot : List Char) (resolvedPaths : List (List Char)) :
    Option (List Char × List Nat) :=
  let streams := httpStreamPathIndices resolvedPaths
  let excludeIndices :=
    ((resolvedPaths.enum).filter
      (fun q => oldRoot.isPrefixOf q.2 && !(streams.contains q.1))).map Prod.fst
  if excludeIndices.length + streams.length = resolvedPaths.length then none
  else some (oldRoot, excludeIndices)

/--
The exclusion set the spec describes (spec §3, Exclusion Set): the indices of
the candidates that do NOT start with the root and are not stream entries
(stated in the spec's words, for comparison with the code's behaviour).
-/
def specExcludedIndices (oldRoot : List Char) (resolvedPaths : List (List Char)) : List Nat :=
  ((resolvedPaths.enum).filter
    (fun q => !(oldRoot.isPrefixOf q.2) && !(isHttpStream q.2))).map Prod.fst

/--
The candidate list handed to `findLargestCommonPrefix` by
`determineCommonRootAndExcludedFiles` (src/src/main.ts lines 785-789):
`resolvedPaths.filter((val, index) => !httpStreamPathIndices.includes(index))`.
-/
def filterOutStreams (resolvedPaths : List (List Char)) : List (List Char) :=
  ((resolvedPaths.enum).filter
    (fun q => !((httpStreamPathIndices resolvedPaths).contains q.1))).map Prod.snd

/--
Function `determineCommonRootAndExcludedFiles` (src/src/main.ts lines 773-821), root
auto-detection: the common-prefix computation runs on the stream-filtered
candidate list; an empty prefix aborts the run (`none`).
-/
def determineCommonRootAndExcludedFiles (resolvedPaths : List (List Char)) :
    Option (List Char × List Nat) :=
  let r := findLargestCommonPrefix (filterOutStreams resolvedPaths) []
  if r.1 = [] then none else some r

/--
Which files the rewrite loop of `transformFilesUsingConfiguration`
(src/src/main.ts lines 894-900) skips: the loop enumerates the metadata
lookup's values in insertion order with a counter `i` and skips position `i`
when `excludeIndices.includes(i)`.
-/
def rewriteSkippedFiles (metaFilenames : List (List Char)) (excludeIndices : List Nat) :
    List (List Char) :=
  ((metaFilenames.enum).filter (fun q => excludeIndices.contains q.1)).map Prod.snd

/--
The playlists an index set denotes when read, as the spec's Exclusion Set is
defined, as positions in the playlist file list.
-/
def playlistsAtIndices (playlistFiles : List (List Char)) (excludeIndices : List Nat) :
    List (List Char) :=
  ((playlistFiles.enum).filter (fun q => excludeIndices.contains q.1)).map Prod.snd

/--
The output-name collision handling of `transformFilesUsingConfiguration`
(src/src/main.ts lines 907-917): a sanitized title already present in
`sanitizedNames` gets a single `" 2"` appended; the (possibly suffixed) name
is then recorded.
-/
def assignName (used : List (List Char)) (t : List Char) : List Char :=
  if used.contains t then t ++ " 2".toList else t

/-- The names assigned to a run's sanitized titles, in processing order. -/
def assignNames (used : List (List Char)) : List (List Char) → List (List Char)
  | [] => []
  | t :: ts =>
    assignName used t :: assignNames (used ++ [assignName used t]) ts

/-- The target file names written in one run, one per retained playlist. -/
def targetFiles (sanitizedTitles : List (List Char)) : List (List Char) :=
  (assignNames [] sanitizedTitles).map (fun n => n ++ ".m3u".toList)

/--
C1: the exclusion test of `determineExcludedFiles` is inverted.  With the
operator-supplied root `C:\Lib` and candidates `C:\Lib\a.mp3`, `D:\other.mp3`,
the code excludes index 0 (the candidate that DOES start with the root) while
the spec's Exclusion Set is exactly index 1; and with the single matching
candidate `C:\Lib\a.mp3` the code raises the fatal prefix-not-found error
(`none`) although every non-stream candidate matches the root, where the claim
reserves that error for the case that no non-stream candidate matches.
-/
theorem determineExcludedFiles_inverted :
    determineExcludedFiles "C:\\Lib".toList
        ["C:\\Lib\\a.mp3".toList, "D:\\other.mp3".toList] =
      some ("C:\\Lib".toList, [0]) ∧
    specExcludedIndices "C:\\Lib".toList
        ["C:\\Lib\\a.mp3".toList, "D:\\other.mp3".toList] = [1] ∧
    determineExcludedFiles "C:\\Lib".toList ["C:\\Lib\\a.mp3".toList] = none ∧
    specExcludedIndices "C:\\Lib".toList ["C:\\Lib\\a.mp3".toList] = [] := by
  decide

/--
C9: the regex of `getFirstEntry` requires a newline before the captured line, so the
first line of the file is never a candidate, contradicting the function's own
documentation ("Matches first line that does not start with a '#'") and the
claim.  On the content `track1.mp3\n#EXTINF:1\ntrack2.mp3` the code yields
`track2.mp3` while the first line not starting with `#` is `track1.mp3`.
-/
theorem getFirstEntry_misses_first_line :
    getFirstEntry "track1.mp3\n#EXTINF:1\ntrack2.mp3".toList = "track2.mp3".toList ∧
    specFirstEntry "track1.mp3\n#EXTINF:1\ntrack2.mp3".toList = "track1.mp3".toList := by
  decide

/--
C3: the exclusion indices are built over the stream-filtered candidate list but
consumed as positions of the metadata iteration (and reported against the
unfiltered playlist file list).  With playlists `s.m3u8, a.m3u8, b.m3u8`
(metadata in the same order), candidates `http://r, C:\A\1.mp3, D:\B\2.mp3`:
the resolver computes exclusion index 1 (position of `D:\B\2.mp3` in the
filtered list), the rewrite loop therefore skips `a.m3u8`, yet the playlist
whose candidate fails the resolved root is `b.m3u8` (index 2 of the playlist
file list).
-/
theorem exclusion_index_spaces_mismatch :
    determineCommonRootAndExcludedFiles
        ["http://r".toList, "C:\\A\\1.mp3".toList, "D:\\B\\2.mp3".toList] =
      some ("C:\\A\\1.mp3".toList, [1]) ∧
    rewriteSkippedFiles ["s.m3u8".toList, "a.m3u8".toList, "b.m3u8".toList] [1] =
      ["a.m3u8".toList] ∧
    specExcludedIndices "C:\\A\\1.mp3".toList
        ["http://r".toList, "C:\\A\\1.mp3".toList, "D:\\B\\2.mp3".toList] = [2] ∧
    playlistsAtIndices ["s.m3u8".toList, "a.m3u8".toList, "b.m3u8".toList] [2] =
      ["b.m3u8".toList] ∧
    (["a.m3u8".toList] : List (List Char)) ≠ ["b.m3u8".toList] := by
  have hfil : filterOutStreams
      ["http://r".toList, "C:\\A\\1.mp3".toList, "D:\\B\\2.mp3".toList] =
      ["C:\\A\\1.mp3".toList, "D:\\B\\2.mp3".toList] := by decide
  have hflcp : findLargestCommonPrefix
      ["C:\\A\\1.mp3".toList, "D:\\B\\2.mp3".toList] [] =
      ("C:\\A\\1.mp3".toList, [1]) := by
    rw [flcp_zero_case "C:\\A\\1.mp3".toList ["D:\\B\\2.mp3".toList] []
      (by decide) (by decide) (by decide)]
    have h1 : (["C:\\A\\1.mp3".toList, "D:\\B\\2.mp3".toList] : List (List Char)).filter
        (fun w => w.head? == ("C:\\A\\1.mp3".toList : List Char).head?) =
        ["C:\\A\\1.mp3".toList] := by decide
    have h2 : (((["C:\\A\\1.mp3".toList, "D:\\B\\2.mp3".toList] :
        List (List Char)).enum).filter
        (fun q => !(q.2.head? == ("C:\\A\\1.mp3".toList : List Char).head?))).map
        Prod.fst = [1] := by decide
    rw [h1, h2, flcp_single _ _ (by decide)]
    rfl
  refine ⟨?_, by decide, by decide, by decide, by decide⟩
  unfold determineCommonRootAndExcludedFiles
  rw [hfil, hflcp]
  decide

/-- JS `includes` holds whenever `isPrefixOf` does. -/
theorem hasSubstr_of_isPrefixOf (pat l : List Char) (h : pat.isPrefixOf l = true) :
    hasSubstr pat l = true := by
  cases l with
  | nil =>
    cases pat with
    | nil => rfl
    | cons p ps => simp [List.isPrefixOf] at h
  | cons c s =>
    rw [hasSubstr]
    simp [h]

/-- A replacement template without dollar signs is substituted literally. -/
theorem getSubstitution_no_dollar (m b a : List Char) : ∀ rep : List Char,
    '$' ∉ rep → getSubstitution m b a rep = rep := by
  intro rep
  induction rep with
  | nil => intro _; rfl
  | cons c r ih =>
    intro h
    have hc : c ≠ '$' := fun e => h (by rw [e]; exact List.mem_cons_self _ _)
    have hr : '$' ∉ r := fun hm => h (List.mem_cons_of_mem _ hm)
    rw [show getSubstitution m b a (c :: r) = c :: getSubstitution m b a r from by
      cases r <;> simp [getSubstitution, hc]]
    rw [ih hr]

/-- The match of a pattern standing at the very start of a string is at 0. -/
theorem matchPos_append (pat t : List Char) : matchPos pat (pat ++ t) = some 0 := by
  cases pat with
  | nil =>
    cases t with
    | nil => rfl
    | cons c s => simp [matchPos, List.isPrefixOf]
  | cons p ps =>
    rw [List.cons_append, matchPos, if_pos]
    have : (p :: ps) <+: (p :: ps) ++ t := List.prefix_append _ _
    rw [List.cons_append] at this
    simpa [List.isPrefixOf_iff_prefix] using this

/--
Replacing the first occurrence of a pattern at the very start of a string,
for a dollar-free replacement.
-/
theorem jsReplace_append (pat rep t : List Char) (hrep : '$' ∉ rep) :
    jsReplace pat rep (pat ++ t) = rep ++ t := by
  unfold jsReplace
  rw [matchPos_append]
  simp only [List.take_zero, Nat.zero_add, List.drop_left, List.nil_append]
  rw [getSubstitution_no_dollar pat [] t rep hrep]

/--
C7 (amended): for every line that starts with `oldRoot` AND does not contain
the `#EXTM3U` marker, and for every `newRoot` containing no dollar sign (so
that the JS replacement-template substitution inserts it literally), the
rewriter outputs the line with the matched leading occurrence of `oldRoot`
replaced by `newRoot`, every backslash then replaced by a forward slash, and a
trailing newline appended.  (The original claim omitted both conditions: a
line that starts with `oldRoot` but contains `#EXTM3U` is dropped, see the
counterexample; and a `newRoot` containing dollar sequences is not inserted
literally by `String.prototype.replace`.)
-/
theorem rootLine_rewritten (oldRoot newRoot t : List Char)
    (hdollar : '$' ∉ newRoot)
    (hmarker : hasSubstr extm3uMarker (oldRoot ++ t) = false) :
    transformLine oldRoot newRoot (oldRoot ++ t) =
      some ((newRoot ++ t).map slashify ++ ['\n']) := by
  unfold transformLine
  rw [if_neg (by simp [hmarker])]
  have hpre : oldRoot.isPrefixOf (oldRoot ++ t) = true := by
    simpa [List.isPrefixOf_iff_prefix] using List.prefix_append oldRoot t
  rw [if_neg (by simp [hpre]), jsReplace_append oldRoot newRoot t hdollar]

/--
Counterexample to C7 as stated: the line `C:\Music\#EXTM3U` starts with the
root `C:\Music` but is dropped by the header check, so nothing is output for
it.
-/
theorem rootLine_dropped_counterexample :
    transformLine "C:\\Music".toList "D:/Lib".toList "C:\\Music\\#EXTM3U".toList = none ∧
    ("C:\\Music".toList).isPrefixOf "C:\\Music\\#EXTM3U".toList = true := by
  decide

/-- The claim's round-trip example, via C7's amended theorem. -/
theorem rootLine_rewritten_witness :
    transformLine "C:\\Music".toList "D:/Lib".toList
        ("C:\\Music".toList ++ "\\Artist\\track.mp3".toList) =
      some (("D:/Lib".toList ++ "\\Artist\\track.mp3".toList).map slashify ++ ['\n']) ∧
    ("D:/Lib".toList ++ "\\Artist\\track.mp3".toList).map slashify ++ ['\n'] =
      "D:/Lib/Artist/track.mp3\n".toList :=
  ⟨rootLine_rewritten _ _ _ (by decide) (by decide), by decide⟩

/--
C4 (amended): an HTTP(S) stream line passes through the rewriter unchanged
(up to the appended newline) for every `oldRoot` that is not a prefix of the
line and as long as the line does not contain the `#EXTM3U` marker.  (The
original claim quantified over ALL `oldRoot`/`newRoot`; it fails when
`oldRoot` is itself a prefix of the URL, see the counterexample.)
-/
theorem streamLine_unchanged (oldRoot newRoot line : List Char)
    (hstream : isHttpStream line = true)
    (hroot : oldRoot.isPrefixOf line = false)
    (hmarker : hasSubstr extm3uMarker line = false) :
    transformLine oldRoot newRoot line = some (line ++ ['\n']) := by
  unfold transformLine
  rw [if_neg (by simp [hmarker]), if_pos (by simp [hroot])]

/--
Counterexample to C4 as stated: with `oldRoot = "http://"` and
`newRoot = ""` the stream line IS altered (its scheme prefix is stripped).
-/
theorem streamLine_altered_counterexample :
    transformLine "http://".toList [] "http://stream.example.com/radio".toList =
      some "stream.example.com/radio\n".toList ∧
    "stream.example.com/radio\n".toList ≠
      ("http://stream.example.com/radio".toList ++ ['\n']) := by
  decide

/-- Concrete instance of C4's amended theorem at a local root. -/
theorem streamLine_unchanged_witness :
    transformLine "C:\\Music".toList "D:/Lib".toList
        "http://stream.example.com/radio".toList =
      some ("http://stream.example.com/radio".toList ++ ['\n']) :=
  streamLine_unchanged _ _ _ (by decide) (by decide) (by decide)

/-- The line splitter consumes one serialized line up to its LF terminator. -/
theorem splitAux_line (l : List Char) : ∀ cur rest : List Char,
    (∀ c ∈ l, c ≠ '\n' ∧ c ≠ '\r') →
    splitAux cur (l ++ '\n' :: rest) = (cur.reverse ++ l) :: splitAux [] rest := by
  induction l with
  | nil =>
    intro cur rest _
    simp [splitAux]
  | cons c l' ih =>
    intro cur rest hl
    have hc := hl c (List.mem_cons_self _ _)
    rw [List.cons_append]
    rw [show splitAux cur (c :: (l' ++ '\n' :: rest)) = splitAux (c :: cur) (l' ++ '\n' :: rest)
      from by simp [splitAux, hc.1, hc.2]]
    rw [ih (c :: cur) rest (fun x hx => hl x (List.mem_cons_of_mem _ hx))]
    simp

/--
Splitting a file serialized with LF line endings and a trailing newline
recovers exactly its lines.
-/
theorem jsSplitLines_joinLines (lines : List (List Char))
    (h : ∀ l ∈ lines, ∀ c ∈ l, c ≠ '\n' ∧ c ≠ '\r') :
    jsSplitLines (joinLines lines) = lines := by
  induction lines with
  | nil => rfl
  | cons l ls ih =>
    have h1 := h l (List.mem_cons_self _ _)
    have ih' := ih (fun x hx => h x (List.mem_cons_of_mem _ hx))
    unfold jsSplitLines joinLines at ih' ⊢
    rw [List.map_cons, List.flatten_cons, List.append_assoc, List.singleton_append,
      splitAux_line l _ _ h1, ih']
    simp

/-- A line free of the pattern is copied through (or dropped as a header line). -/
theorem transformLine_no_root (old new l : List Char) (hold : hasSubstr old l = false) :
    transformLine old new l =
      if hasSubstr extm3uMarker l then none else some (l ++ ['\n']) := by
  have hp : old.isPrefixOf l = false := by
    by_contra hcon
    rw [Bool.not_eq_false] at hcon
    rw [hasSubstr_of_isPrefixOf old l hcon] at hold
    simp at hold
  unfold transformLine
  by_cases hm : hasSubstr extm3uMarker l = true
  · simp [hm]
  · simp only [Bool.not_eq_true] at hm
    simp [hm, hp]

/-- The whole-file version of `transformLine_no_root`. -/
theorem transformLines_no_root (old new : List Char) : ∀ lines : List (List Char),
    (∀ l ∈ lines, hasSubstr old l = false) →
    transformLines old new lines =
      joinLines (lines.filter (fun l => !(hasSubstr extm3uMarker l))) := by
  intro lines
  induction lines with
  | nil => intro _; rfl
  | cons l ls ih =>
    intro hold
    have h1 := hold l (List.mem_cons_self _ _)
    have ih' := ih (fun x hx => hold x (List.mem_cons_of_mem _ hx))
    by_cases hm : hasSubstr extm3uMarker l = true
    · simp [transformLines, joinLines, List.filterMap_cons,
        transformLine_no_root old new l h1, hm, List.filter_cons] at ih' ⊢
      exact ih'
    · simp only [Bool.not_eq_true] at hm
      simp [transformLines, joinLines, List.filterMap_cons,
        transformLine_no_root old new l h1, hm, List.filter_cons] at ih' ⊢
      exact ih'

/--
C8 (amended): for every input file with LF line endings and a trailing final
newline, none of whose lines contains an occurrence of `oldRoot`, rewriting
produces output byte-identical to the input except that every line containing
the `#EXTM3U` marker is removed (together with its newline).  (The original
claim, stated for arbitrary file bytes, fails for a file without a trailing
newline: the rewriter appends one, see the counterexample.)
-/
theorem rewrite_without_root_preserves (old new : List Char) (lines : List (List Char))
    (hchars : ∀ l ∈ lines, ∀ c ∈ l, c ≠ '\n' ∧ c ≠ '\r')
    (hold : ∀ l ∈ lines, hasSubstr old l = false) :
    transformContent old new (joinLines lines) =
      joinLines (lines.filter (fun l => !(hasSubstr extm3uMarker l))) := by
  unfold transformContent
  rw [jsSplitLines_joinLines lines hchars]
  exact transformLines_no_root old new lines hold

/--
Counterexample to C8 as stated: the one-line file `track.mp3` with no trailing
newline contains neither the root `C:\Lib` nor the header marker, yet its
rewrite output `track.mp3\n` is not byte-identical to the input.
-/
theorem rewrite_appends_newline_counterexample :
    ((jsSplitLines "track.mp3".toList).all
      (fun l => !(hasSubstr "C:\\Lib".toList l))) = true ∧
    ((jsSplitLines "track.mp3".toList).all
      (fun l => !(hasSubstr extm3uMarker l))) = true ∧
    transformContent "C:\\Lib".toList [] "track.mp3".toList ≠ "track.mp3".toList := by
  decide

/-- Concrete instance of C8's amended theorem: the header line is removed. -/
theorem rewrite_without_root_preserves_witness :
    transformContent "C:\\Lib".toList []
        (joinLines ["#EXTM3U".toList, "a.mp3".toList]) =
      joinLines ((["#EXTM3U".toList, "a.mp3".toList] :
        List (List Char)).filter (fun l => !(hasSubstr extm3uMarker l))) :=
  rewrite_without_root_preserves "C:\\Lib".toList [] _ (by decide) (by decide)

/-- Appending a fresh element preserves distinctness. -/
theorem nodup_append_singleton {α : Type} (l : List α) (a : α) (hl : l.Nodup) (ha : a ∉ l) :
    (l ++ [a]).Nodup := by
  rw [List.nodup_append]
  refine ⟨hl, List.nodup_singleton _, ?_⟩
  intro x hx hx'
  rw [List.mem_singleton] at hx'
  subst hx'
  exact ha hx

/--
Invariant of the naming loop: starting from a duplicate-free set of used names,
if every upcoming title occurs at most twice in total (counting a prior
occurrence among the used names), no upcoming title's suffixed form is already
used, and no upcoming title equals another upcoming title's suffixed form, then
all names ever recorded are pairwise distinct.
-/
theorem assignNames_nodup (ts : List (List Char)) : ∀ used : List (List Char),
    used.Nodup →
    (∀ t ∈ ts, ts.count t + (if t ∈ used then 1 else 0) ≤ 2) →
    (∀ t ∈ ts, (t ++ " 2".toList) ∉ used) →
    (∀ t ∈ ts, ∀ s ∈ ts, t ≠ s ++ " 2".toList) →
    (used ++ assignNames used ts).Nodup := by
  induction ts with
  | nil =>
    intro used hu _ _ _
    simpa [assignNames] using hu
  | cons t ts' ih =>
    intro used hu h2 h3 h4
    rw [assignNames]
    by_cases hmem : t ∈ used
    · have hname : assignName used t = t ++ " 2".toList := by
        rw [assignName, if_pos (by simpa using hmem)]
      have htnotin : t ∉ ts' := by
        have hb := h2 t (List.mem_cons_self _ _)
        rw [List.count_cons] at hb
        have hb' : ts'.count t + 1 + 1 ≤ 2 := by simpa [hmem] using hb
        exact List.count_eq_zero.mp (by omega)
      rw [hname]
      rw [show used ++ (t ++ " 2".toList) :: assignNames (used ++ [t ++ " 2".toList]) ts' =
          (used ++ [t ++ " 2".toList]) ++ assignNames (used ++ [t ++ " 2".toList]) ts' from by
        simp]
      apply ih (used ++ [t ++ " 2".toList])
      · exact nodup_append_singleton used _ hu (h3 t (List.mem_cons_self _ _))
      · intro s hs
        have hst : s ≠ t := fun hst => htnotin (hst ▸ hs)
        have hsn : s ≠ t ++ " 2".toList :=
          h4 s (List.mem_cons_of_mem _ hs) t (List.mem_cons_self _ _)
        have hb := h2 s (List.mem_cons_of_mem _ hs)
        rw [List.count_cons] at hb
        simp only [beq_iff_eq] at hb
        rw [if_neg (fun h => hst h.symm)] at hb
        have hiff : s ∈ used ++ [t ++ " 2".toList] ↔ s ∈ used := by
          rw [List.mem_append, List.mem_singleton]
          exact ⟨fun h => h.elim id (fun h' => absurd h' hsn), Or.inl⟩
        by_cases hsu : s ∈ used
        · rw [if_pos (hiff.mpr hsu)]
          rw [if_pos hsu] at hb
          omega
        · rw [if_neg (fun h => hsu (hiff.mp h))]
          rw [if_neg hsu] at hb
          omega
      · intro s hs hmem'
        rw [List.mem_append, List.mem_singleton] at hmem'
        rcases hmem' with h' | h'
        · exact h3 s (List.mem_cons_of_mem _ hs) h'
        · exact htnotin ((List.append_cancel_right h') ▸ hs)
      · exact fun a ha b hb => h4 a (List.mem_cons_of_mem _ ha) b (List.mem_cons_of_mem _ hb)
    · have hname : assignName used t = t := by
        rw [assignName, if_neg (by simpa using hmem)]
      rw [hname]
      rw [show used ++ t :: assignNames (used ++ [t]) ts' =
          (used ++ [t]) ++ assignNames (used ++ [t]) ts' from by simp]
      apply ih (used ++ [t])
      · exact nodup_append_singleton used _ hu hmem
      · intro s hs
        have hb := h2 s (List.mem_cons_of_mem _ hs)
        rw [List.count_cons] at hb
        by_cases hst : s = t
        · subst hst
          have hb' : ts'.count s + 1 ≤ 2 := by simpa [hmem] using hb
          rw [if_pos (by rw [List.mem_append, List.mem_singleton]; exact Or.inr rfl)]
          omega
        · simp only [beq_iff_eq] at hb
          rw [if_neg (fun h => hst h.symm)] at hb
          have hiff : s ∈ used ++ [t] ↔ s ∈ used := by
            rw [List.mem_append, List.mem_singleton]
            exact ⟨fun h => h.elim id (fun h' => absurd h' hst), Or.inl⟩
          by_cases hsu : s ∈ used
          · rw [if_pos (hiff.mpr hsu)]
            rw [if_pos hsu] at hb
            omega
          · rw [if_neg (fun h => hsu (hiff.mp h))]
            rw [if_neg hsu] at hb
            omega
      · intro s hs hmem'
        rw [List.mem_append, List.mem_singleton] at hmem'
        rcases hmem' with h' | h'
        · exact h3 s (List.mem_cons_of_mem _ hs) h'
        · exact h4 t (List.mem_cons_self _ _) s (List.mem_cons_of_mem _ hs) h'.symm
      · exact fun a ha b hb => h4 a (List.mem_cons_of_mem _ ha) b (List.mem_cons_of_mem _ hb)

/--
C5 (amended): in a run where every sanitized title occurs at most twice and no
sanitized title equals another sanitized title with `" 2"` appended, the
written target file names are pairwise distinct, a second occurrence of a title
receiving the `" 2"` suffix (see the witness: two titles sanitizing to
`My Mix` yield `My Mix.m3u` and `My Mix 2.m3u`).  (The original claim, for
arbitrary runs, fails with three identical sanitized titles: the suffix is
appended only once and the third output collides with the second, see the
counterexample.)
-/
theorem targetFiles_nodup (sanitizedTitles : List (List Char))
    (hcount : ∀ t ∈ sanitizedTitles, sanitizedTitles.count t ≤ 2)
    (hsuffix : ∀ t ∈ sanitizedTitles, ∀ s ∈ sanitizedTitles, t ≠ s ++ " 2".toList) :
    (targetFiles sanitizedTitles).Nodup := by
  have h := assignNames_nodup sanitizedTitles []
    List.nodup_nil
    (fun t ht => by simpa using hcount t ht)
    (fun t _ => List.not_mem_nil _)
    hsuffix
  rw [List.nil_append] at h
  unfold targetFiles
  exact List.Nodup.map (fun a b hab => List.append_cancel_right hab) h

/--
Counterexample to C5 as stated: three playlists whose titles all sanitize to
`My Mix` produce the target files `My Mix.m3u`, `My Mix 2.m3u`, `My Mix 2.m3u`,
so two retained playlists are written to the same target file.
-/
theorem targetFiles_triple_collision_counterexample :
    targetFiles ["My Mix".toList, "My Mix".toList, "My Mix".toList] =
      ["My Mix.m3u".toList, "My Mix 2.m3u".toList, "My Mix 2.m3u".toList] ∧
    ¬ (targetFiles ["My Mix".toList, "My Mix".toList, "My Mix".toList]).Nodup := by
  decide

/-- The claim's collision example, via C5's amended theorem. -/
theorem targetFiles_nodup_witness :
    (targetFiles ["My Mix".toList, "My Mix".toList]).Nodup ∧
    targetFiles ["My Mix".toList, "My Mix".toList] =
      ["My Mix.m3u".toList, "My Mix 2.m3u".toList] :=
  ⟨targetFiles_nodup _ (by decide) (by decide), by decide⟩

end M3u8Tweaks
